import Mathlib

/-
Verification development for the PingMint repository
(src/batch_transfer.py and src/mint_netpackets.py).

The Python code is shallowly embedded: every network interaction
(RPC probe, log query, transaction submission, receipt wait) is
represented by an explicit parameter or event, and the pure decision
logic of each function is translated directly.  Token identifiers,
nonces and block numbers are natural numbers; Python `set` objects are
modelled as duplicate-free lists in insertion order; Python `sorted`
is insertion sort under `≤`.
-/

namespace PingMint

/-! ## Model of Python `set` and `sorted` -/

/-- Adding an element to a Python `set`: a no-op when already present,
otherwise appended (sets are modelled as duplicate-free lists). -/
def pySetAdd (s : List ℕ) (x : ℕ) : List ℕ :=
  if x ∈ s then s else s ++ [x]

/-- Adding every element of a list to a Python `set` in order. -/
def pySetAddAll (s : List ℕ) (xs : List ℕ) : List ℕ :=
  xs.foldl pySetAdd s

/-- Python set difference `a - b`. -/
def pySetDiff (a b : List ℕ) : List ℕ :=
  a.filter (fun x => decide (x ∉ b))

/-- Python `sorted` on a list of naturals (ascending). -/
def pySorted (l : List ℕ) : List ℕ :=
  List.insertionSort (· ≤ ·) l


/-! ## Initialization traces (`BatchTransfer.__init__`,
`NetPacketsMinter.__init__`).

Each constructor is modelled as the ordered trace of its credential
checks and network interactions, together with how it ends. -/

/-- One observable step of client initialization. -/
inductive InitEvent where
  | rpcProbe (i : ℕ)
  | credCheck
  | mainConnect
  | credParse
  | balanceQuery
  deriving DecidableEq

/-- Whether an initialization step issues a network request
(`rpcProbe` = probing a candidate endpoint, `mainConnect` = the
`is_connected` check of the pinned endpoint, `balanceQuery` = the balance
read; the credential presence check and key parsing are local). -/
def isNetworkCall : InitEvent → Bool
  | .rpcProbe _ => true
  | .credCheck => false
  | .mainConnect => true
  | .credParse => false
  | .balanceQuery => true

/-- How initialization ends. -/
inductive InitOutcome where
  | ok
  | configError
  | connectError
  deriving DecidableEq


end PingMint

namespace BatchTransfer

open PingMint

/-! ## Distribution planner and nonce assignment
(`BatchTransfer.transfer_to_multiple`, `BatchTransfer.rapid_sequential_transfer`,
and the distribution branches of `main`). -/

/-- The pairing produced by `transfer_to_multiple`: when the lists have
different lengths both are truncated to the shorter one (with a warning
printed, not modelled), then paired positionally. -/
def transfer_to_multiple_pairs (tokenIds : List ℕ) (addresses : List String) :
    List (ℕ × String) :=
  if tokenIds.length ≠ addresses.length then
    (tokenIds.take (min tokenIds.length addresses.length)).zip
      (addresses.take (min tokenIds.length addresses.length))
  else
    tokenIds.zip addresses


/-- The transactions built by `rapid_sequential_transfer`: job `i`
transfers `tokenIds[i]` with nonce `base_nonce + i`
(the base nonce is read once, before the loop). -/
def rapid_sequential_build (baseNonce : ℕ) (tokenIds : List ℕ) : List (ℕ × ℕ) :=
  tokenIds.enum.map (fun p => (p.2, baseNonce + p.1))

/-- The transactions built by `transfer_to_multiple`: job `i` transfers
pair `i` of the (truncated) token/address pairing with nonce `base_nonce + i`. -/
def transfer_to_multiple_build (baseNonce : ℕ) (tokenIds : List ℕ)
    (addresses : List String) : List (ℕ × String × ℕ) :=
  (transfer_to_multiple_pairs tokenIds addresses).enum.map
    (fun p => (p.2.1, p.2.2, baseNonce + p.1))

/-! ## Custom-count distribution (`main`, distribution mode 3). -/

/-- Sequential consumption of holdings under explicit per-address counts:
each address takes the next `amount` holdings in the resolver's order
(the `idx < len(my_nfts)` guard in the source becomes `take` truncation). -/
def custom_distribution_pairs (holdings : List ℕ) :
    List (String × ℕ) → List (ℕ × String)
  | [] => []
  | (addr, amount) :: rest =>
      ((holdings.take amount).map (fun t => (t, addr)))
        ++ custom_distribution_pairs (holdings.drop amount) rest

/-- The custom distribution branch of `main`: reject the whole plan when
the requested total exceeds the available holdings, otherwise consume
holdings sequentially. -/
def custom_distribution (holdings : List ℕ) (addresses : List String)
    (amounts : List ℕ) : Option (List (ℕ × String)) :=
  if amounts.sum > holdings.length then none
  else some (custom_distribution_pairs holdings (addresses.zip amounts))


/-! ## Event-log reconstruction (`BatchTransfer._get_nfts_from_events`).

A block-range chunk is modelled by whether its two log queries succeed
(`ok`) and, when they do, the token ids appearing in the transfer events
toward the wallet (`recv`) and away from it (`sent`). -/

/-- One fixed-size block-range chunk of the event scan. -/
structure Chunk where
  ok : Bool
  recv : List ℕ
  sent : List ℕ

/-- The source's `max_errors` bound on consecutive chunk failures. -/
def max_errors : ℕ := 3

/-- Processing one chunk: on success both token-id sets grow, on failure
the accumulator is untouched (the chunk is skipped). -/
def scanChunk (acc : List ℕ × List ℕ) (c : Chunk) : List ℕ × List ℕ :=
  if c.ok then (PingMint.pySetAddAll acc.1 c.recv, PingMint.pySetAddAll acc.2 c.sent)
  else acc

/-- Accumulated `received_nfts` and `sent_nfts` sets after a list of chunks. -/
def scanAcc (chunks : List Chunk) : List ℕ × List ℕ :=
  chunks.foldl scanChunk ([], [])

/-- Result of the chunked scan: either the sorted currently-owned set, or
an abort to the next-tier strategy (`_get_nfts_by_scanning`). -/
inductive ScanResult where
  | done (ids : List ℕ)
  | nextTier
  deriving DecidableEq

/-- The chunk loop with its rolling consecutive-error counter: reset to 0
on every successful chunk, incremented on a failed one, aborting to the
next tier when it reaches `max_errors`. -/
def scanGo : List Chunk → List ℕ × List ℕ → ℕ → ScanResult
  | [], acc, _ => .done (PingMint.pySorted (PingMint.pySetDiff acc.1 acc.2))
  | c :: rest, acc, errCount =>
      if c.ok then scanGo rest (scanChunk acc c) 0
      else if errCount + 1 ≥ max_errors then .nextTier
      else scanGo rest acc (errCount + 1)

/-- `_get_nfts_from_events`, given the outcomes of its chunk queries. -/
def getNftsFromEvents (chunks : List Chunk) : ScanResult :=
  scanGo chunks ([], []) 0

/-- The `KeyboardInterrupt` handler of `_get_nfts_from_events`: after `k`
processed chunks it returns the sorted partial reconstruction when it is
non-empty, and re-raises (modelled as `none`) when it is empty. -/
def interruptedScan (chunks : List Chunk) (k : ℕ) : Option (List ℕ) :=
  let acc := scanAcc (chunks.take k)
  let owned := PingMint.pySetDiff acc.1 acc.2
  if owned.length > 0 then some (PingMint.pySorted owned) else none

/-- Token `x` appears in a transfer toward the wallet within the first `k`
successfully queried chunks. -/
def ReceivedIn (chunks : List Chunk) (k : ℕ) (x : ℕ) : Prop :=
  ∃ c ∈ chunks.take k, c.ok = true ∧ x ∈ c.recv

/-- Token `x` appears in a transfer away from the wallet within the first
`k` successfully queried chunks. -/
def SentIn (chunks : List Chunk) (k : ℕ) (x : ℕ) : Prop :=
  ∃ c ∈ chunks.take k, c.ok = true ∧ x ∈ c.sent

instance (chunks : List Chunk) (k x : ℕ) : Decidable (ReceivedIn chunks k x) :=
  List.decidableBEx _ _

instance (chunks : List Chunk) (k x : ℕ) : Decidable (SentIn chunks k x) :=
  List.decidableBEx _ _


/-! ## The rolling error counter of the event scan. -/

/-- The abort decision of the chunk loop as a function of the chunk
success pattern and the current consecutive-error count. -/
def abortsFrom : List Bool → ℕ → Bool
  | [], _ => false
  | true :: rest, _ => abortsFrom rest 0
  | false :: rest, ec =>
      if ec + 1 ≥ max_errors then true else abortsFrom rest (ec + 1)

/-- Whether a success pattern starts with `n` failures. -/
def startsWithFails : ℕ → List Bool → Bool
  | 0, _ => true
  | _ + 1, [] => false
  | n + 1, b :: rest => !b && startsWithFails n rest

/-- Whether a success pattern contains three consecutive failures. -/
def hasThreeConsecFails : List Bool → Bool
  | [] => false
  | b :: rest => (!b && startsWithFails 2 rest) || hasThreeConsecFails rest


/-! ## Indexed API lookup (`BatchTransfer._get_nfts_from_api` and the
`auto` branch of `BatchTransfer.get_my_nfts`). -/

/-- Parsed outcome of one Alchemy NFT API attempt: the credential may be
missing, the transport may fail, or a response with a status code and the
parsed owned token ids arrives. -/
structure ApiResponse where
  status : ℕ
  ownedIds : List ℕ

/-- The three ways `_get_nfts_from_api` can observe the API. -/
inductive ApiAttempt where
  | noCredential
  | transportError
  | response (r : ApiResponse)

/-- `_get_nfts_from_api`: returns the sorted ids only on a status-200
response with a non-empty parsed list; every other case — including a
status-200 response with zero NFTs — returns `None`. -/
def getNftsFromApi : ApiAttempt → Option (List ℕ)
  | .noCredential => none
  | .transportError => none
  | .response r =>
      if r.status = 200 then
        if r.ownedIds ≠ [] then some (PingMint.pySorted r.ownedIds) else none
      else none

/-- Which tier actually answers in `get_my_nfts(method="auto")`. -/
inductive ResolvedVia where
  | api (ids : List ℕ)
  | eventScanTier
  deriving DecidableEq

/-- The `auto` branch of `get_my_nfts`: the API tier answers when it
returns a list, otherwise the event-scan tier is consulted. -/
def get_my_nfts_auto (a : ApiAttempt) : ResolvedVia :=
  match getNftsFromApi a with
  | some ids => .api ids
  | none => .eventScanTier


/-! ## Approval gate (`BatchTransfer.approve_bulk_transfer`). -/

/-- Observable effect of one `approve_bulk_transfer` call: its boolean
return, the on-chain approval state afterwards, how many
`setApprovalForAll` transactions were submitted, and how many of those
confirmed successfully (actually granted approval). -/
structure ApprovalOutcome where
  result : Bool
  approvedAfter : Bool
  writesSubmitted : ℕ
  writesGranting : ℕ
  deriving DecidableEq

/-- `approve_bulk_transfer`: read `isApprovedForAll`; when already
approved return success with no write; otherwise submit one approval
transaction whose receipt status (`writeSucceeds`) decides both the
return value and the resulting approval state. -/
def approve_bulk_transfer (approvedBefore writeSucceeds : Bool) : ApprovalOutcome :=
  if approvedBefore then ⟨true, true, 0, 0⟩
  else if writeSucceeds then ⟨true, true, 1, 1⟩
  else ⟨false, false, 1, 0⟩


/-! ## Single-transaction batch path and its fallback
(`BatchTransfer.batch_transfer_single_tx`, `BatchTransfer.bulk_transfer_external`). -/

/-- Outcome of the one `batchTransferFrom` attempt: either a submitted
transaction with a receipt status, or a raised error, characterised by
what the handler tests on its message: whether it mentions the
`batchTransferFrom` selector and whether it contains `"not found"`. -/
inductive SingleTxAttempt where
  | confirmed (receiptOk : Bool)
  | raised (mentionsSelector mentionsNotFound : Bool)

/-- Observable effect of one orchestrator entry point: its boolean
return, how many single batch calls were attempted, and how many times
the per-job pipeline (`rapid_sequential_transfer`) was invoked. -/
structure OrchestratorRun where
  result : Bool
  singleCallsSent : ℕ
  perJobRuns : ℕ
  deriving DecidableEq

/-- `batch_transfer_single_tx`: one single-call attempt; on an error
mentioning the selector or `"not found"` it falls back to the per-job
pipeline (whose overall result is `perJobResult`), on any other error it
returns failure with no fallback. -/
def batch_transfer_single_tx (a : SingleTxAttempt) (perJobResult : Bool) :
    OrchestratorRun :=
  match a with
  | .confirmed receiptOk => ⟨receiptOk, 1, 0⟩
  | .raised sel nf => if sel || nf then ⟨perJobResult, 1, 1⟩ else ⟨false, 1, 0⟩

/-- How an invocation of the per-job pipeline ends: a normal return with
its boolean result, or a raised exception (its first statement, the base
nonce read, is outside any handler and can raise). -/
inductive RunOutcome where
  | finished (result : Bool)
  | raised

/-- `bulk_transfer_external`: after a successful approval gate this path
never encodes the external bulk call and defers to the per-job pipeline
inside its `try` body; when that first invocation raises, the
`except` handler invokes the per-job pipeline a second time (whose result
is `retryResult`).  A failed approval aborts with no transfer. -/
def bulk_transfer_external (approveOk : Bool) (firstRun : RunOutcome)
    (retryResult : Bool) : OrchestratorRun :=
  if approveOk then
    match firstRun with
    | .finished r => ⟨r, 0, 1⟩
    | .raised => ⟨retryResult, 0, 2⟩
  else ⟨false, 0, 0⟩


/-- The RPC endpoint probe loop at the top of `BatchTransfer.__init__`:
each candidate endpoint is probed in order until one connects (every
probe is a network request); remaining candidates are skipped. -/
def probeEvents : List Bool → ℕ → List PingMint.InitEvent
  | [], _ => []
  | connects :: rest, i =>
      PingMint.InitEvent.rpcProbe i ::
        (if connects then [] else probeEvents rest (i + 1))

/-- `BatchTransfer.__init__` as a trace: endpoint probing happens first,
then the `PRIVATE_KEY` presence check, then the main connection check,
then key parsing, then the balance read. -/
def batchTransferInit (probeOk : List Bool) (keyPresent wellFormed mainOk : Bool) :
    List PingMint.InitEvent × PingMint.InitOutcome :=
  if !keyPresent then
    (probeEvents probeOk 0 ++ [.credCheck], .configError)
  else if !mainOk then
    (probeEvents probeOk 0 ++ [.credCheck, .mainConnect], .connectError)
  else if !wellFormed then
    (probeEvents probeOk 0 ++ [.credCheck, .mainConnect, .credParse], .configError)
  else
    (probeEvents probeOk 0 ++ [.credCheck, .mainConnect, .credParse, .balanceQuery], .ok)


end BatchTransfer

namespace Minter

/-- `NetPacketsMinter.__init__` as a trace: the `PRIVATE_KEY` presence
check happens before any network interaction; then the connection check,
key parsing, and the balance read. -/
def minterInit (keyPresent wellFormed mainOk : Bool) :
    List PingMint.InitEvent × PingMint.InitOutcome :=
  if !keyPresent then
    ([.credCheck], .configError)
  else if !mainOk then
    ([.credCheck, .mainConnect], .connectError)
  else if !wellFormed then
    ([.credCheck, .mainConnect, .credParse], .configError)
  else
    ([.credCheck, .mainConnect, .credParse, .balanceQuery], .ok)

/-! ## Mint pipeline (`NetPacketsMinter.mint_nft`, `NetPacketsMinter.run`). -/

/-- Outcome of one mint transaction's receipt: reverted, confirmed with
no Transfer event log from the NFT contract, or confirmed with an
extractable token id. -/
inductive ReceiptOutcome where
  | reverted
  | okNoTransferLog
  | okWithId (id : ℕ)
  deriving DecidableEq

/-- The Python value returned by `mint_nft`: `None` on failure, `True` on
a successful mint whose token id could not be extracted (also when the
extracted id is `0`, since `0` is falsy), or the token id itself. -/
inductive PyVal where
  | pyNone
  | pyTrue
  | pyNat (n : ℕ)
  deriving DecidableEq

/-- Return value of `mint_nft` for each receipt outcome. -/
def mint_nft : ReceiptOutcome → PyVal
  | .reverted => .pyNone
  | .okNoTransferLog => .pyTrue
  | .okWithId id => if id = 0 then .pyTrue else .pyNat id

/-- Python truthiness of a `mint_nft` result (the `if result:` test). -/
def pyTruthy : PyVal → Bool
  | .pyNone => false
  | .pyTrue => true
  | .pyNat n => decide (n ≠ 0)

/-- Python `isinstance(·, int)`: `bool` is a subclass of `int`, so `True`
passes this test. -/
def pyIsInt : PyVal → Bool
  | .pyNone => false
  | .pyTrue => true
  | .pyNat _ => true

/-- The integer value a `mint_nft` result denotes when used as an `int`
(`True` equals `1`). -/
def pyToNat : PyVal → ℕ
  | .pyNone => 0
  | .pyTrue => 1
  | .pyNat n => n

/-- Tallies accumulated by the mint loop in `run`. -/
structure MintRun where
  successfulMints : ℕ
  failedMints : ℕ
  mintedTokenIds : List ℕ
  deriving DecidableEq

/-- One iteration of the mint loop: a truthy result counts as a
successful mint and, when it passes `isinstance(result, int)`, its
integer value is appended to `minted_token_ids`. -/
def runStep (acc : MintRun) (o : ReceiptOutcome) : MintRun :=
  if pyTruthy (mint_nft o) then
    { successfulMints := acc.successfulMints + 1
      failedMints := acc.failedMints
      mintedTokenIds := acc.mintedTokenIds
        ++ (if pyIsInt (mint_nft o) then [pyToNat (mint_nft o)] else []) }
  else
    { successfulMints := acc.successfulMints
      failedMints := acc.failedMints + 1
      mintedTokenIds := acc.mintedTokenIds }

/-- The mint loop of `run` over a list of receipt outcomes. -/
def runMints (outcomes : List ReceiptOutcome) : MintRun :=
  outcomes.foldl runStep ⟨0, 0, []⟩

/-- Number of transfers the transfer phase of `run` attempts: one per
minted-token-id entry until recipient addresses run out. -/
def transfersAttempted (outcomes : List ReceiptOutcome) (numRecipients : ℕ) : ℕ :=
  min (runMints outcomes).mintedTokenIds.length numRecipients

/-- Number of mints whose token id was actually extracted from a Transfer
event log. -/
def extractedIdCount (outcomes : List ReceiptOutcome) : ℕ :=
  outcomes.countP (fun o =>
    match mint_nft o with
    | PyVal.pyNat _ => true
    | _ => false)

end Minter

namespace PingMint

theorem mem_pySetAdd (s : List ℕ) (x y : ℕ) :
    y ∈ pySetAdd s x ↔ y ∈ s ∨ y = x := by
  unfold pySetAdd
  by_cases h : x ∈ s
  · simp only [if_pos h]
    constructor
    · exact Or.inl
    · rintro (hy | rfl)
      · exact hy
      · exact h
  · simp [if_neg h]

theorem nodup_pySetAdd (s : List ℕ) (x : ℕ) (h : s.Nodup) :
    (pySetAdd s x).Nodup := by
  unfold pySetAdd
  by_cases hx : x ∈ s
  · simpa [if_pos hx] using h
  · rw [if_neg hx, List.nodup_append]
    refine ⟨h, List.nodup_singleton x, ?_⟩
    intro a ha hax
    rw [List.mem_singleton] at hax
    exact hx (hax ▸ ha)

theorem mem_pySetAddAll (xs : List ℕ) :
    ∀ (s : List ℕ) (y : ℕ), y ∈ pySetAddAll s xs ↔ y ∈ s ∨ y ∈ xs := by
  induction xs with
  | nil => intro s y; simp [pySetAddAll]
  | cons x xs ih =>
      intro s y
      have : pySetAddAll s (x :: xs) = pySetAddAll (pySetAdd s x) xs := rfl
      rw [this, ih, mem_pySetAdd, List.mem_cons]
      tauto

theorem nodup_pySetAddAll (xs : List ℕ) :
    ∀ s : List ℕ, s.Nodup → (pySetAddAll s xs).Nodup := by
  induction xs with
  | nil => intro s hs; simpa [pySetAddAll] using hs
  | cons x xs ih =>
      intro s hs
      exact ih (pySetAdd s x) (nodup_pySetAdd s x hs)

theorem mem_pySetDiff (a b : List ℕ) (x : ℕ) :
    x ∈ pySetDiff a b ↔ x ∈ a ∧ x ∉ b := by
  unfold pySetDiff
  simp [List.mem_filter]

theorem nodup_pySetDiff (a b : List ℕ) (h : a.Nodup) :
    (pySetDiff a b).Nodup :=
  h.filter _

theorem mem_pySorted (l : List ℕ) (x : ℕ) : x ∈ pySorted l ↔ x ∈ l :=
  (List.perm_insertionSort (· ≤ ·) l).mem_iff

theorem sorted_lt_pySorted (l : List ℕ) (h : l.Nodup) :
    (pySorted l).Sorted (· < ·) := by
  have hs := List.sorted_insertionSort (· ≤ ·) l
  have hn := (List.perm_insertionSort (· ≤ ·) l).nodup_iff.mpr h
  exact hs.lt_of_le hn


end PingMint

namespace BatchTransfer

open PingMint

theorem transfer_to_multiple_pairs_eq_zip (tokenIds : List ℕ) (addresses : List String) :
    transfer_to_multiple_pairs tokenIds addresses = tokenIds.zip addresses := by
  rw [transfer_to_multiple_pairs]
  by_cases h : tokenIds.length = addresses.length
  · simp [h]
  · rw [if_pos h]
    have h1 : (tokenIds.take (min tokenIds.length addresses.length)).zip
        (addresses.take (min tokenIds.length addresses.length))
        = (tokenIds.zip addresses).take (min tokenIds.length addresses.length) := by
      simp [List.zip_eq_zipWith, List.take_zipWith]
    rw [h1]
    exact List.take_of_length_le (le_of_eq (List.length_zip ..))


theorem enum_build_snd (baseNonce : ℕ) (tokenIds : List ℕ) :
    (rapid_sequential_build baseNonce tokenIds).map Prod.snd
      = (List.range tokenIds.length).map (baseNonce + ·) := by
  unfold rapid_sequential_build
  rw [List.map_map]
  have h : (Prod.snd ∘ fun p : ℕ × ℕ => (p.2, baseNonce + p.1))
      = (fun i => baseNonce + i) ∘ Prod.fst := rfl
  rw [h, ← List.map_map, List.enum_map_fst]

/-- C8: under the one-per-address policy the plan has length exactly
`min |S| |D|`, its tokens are the first `min |S| |D|` holdings in order
(so the resolver's ascending order is preserved), and its addresses are
the first `min |S| |D|` destinations; excess on either side never enters
the plan. -/
theorem one_per_address_plan (tokenIds : List ℕ) (addresses : List String) :
    (transfer_to_multiple_pairs tokenIds addresses).length
        = min tokenIds.length addresses.length
    ∧ (transfer_to_multiple_pairs tokenIds addresses).map Prod.fst
        = tokenIds.take (min tokenIds.length addresses.length)
    ∧ (transfer_to_multiple_pairs tokenIds addresses).map Prod.snd
        = addresses.take (min tokenIds.length addresses.length) := by
  rw [transfer_to_multiple_pairs_eq_zip]
  refine ⟨List.length_zip .., ?_, ?_⟩
  · have h1 : tokenIds.zip addresses
        = (tokenIds.take (min tokenIds.length addresses.length)).zip
          (addresses.take (min tokenIds.length addresses.length)) := by
      rw [show (tokenIds.take (min tokenIds.length addresses.length)).zip
          (addresses.take (min tokenIds.length addresses.length))
          = (tokenIds.zip addresses).take (min tokenIds.length addresses.length) by
        simp [List.zip_eq_zipWith, List.take_zipWith]]
      exact (List.take_of_length_le (le_of_eq (List.length_zip ..))).symm
    rw [h1, List.map_fst_zip]
    simp [List.length_take]
  · have h1 : tokenIds.zip addresses
        = (tokenIds.take (min tokenIds.length addresses.length)).zip
          (addresses.take (min tokenIds.length addresses.length)) := by
      rw [show (tokenIds.take (min tokenIds.length addresses.length)).zip
          (addresses.take (min tokenIds.length addresses.length))
          = (tokenIds.zip addresses).take (min tokenIds.length addresses.length) by
        simp [List.zip_eq_zipWith, List.take_zipWith]]
      exact (List.take_of_length_le (le_of_eq (List.length_zip ..))).symm
    rw [h1, List.map_snd_zip]
    simp [List.length_take]

/-- C1: in a batch of `N` token ids built from base nonce `b` (read once
at the start of the build), the job at index `i` is assigned nonce `b + i`,
so the assigned nonces are exactly `b, b+1, …, b+N-1`: no duplicates, no
gaps, no reuse.  This holds for both the rapid sequential pipeline and the
multi-recipient pipeline. -/
theorem nonce_assignment_exact (b : ℕ) (tokenIds : List ℕ) (addresses : List String) :
    (rapid_sequential_build b tokenIds).map Prod.snd
        = (List.range tokenIds.length).map (b + ·)
    ∧ ((rapid_sequential_build b tokenIds).map Prod.snd).Nodup
    ∧ (∀ i : ℕ, (rapid_sequential_build b tokenIds)[i]?
        = tokenIds[i]?.map (fun t => (t, b + i)))
    ∧ (transfer_to_multiple_build b tokenIds addresses).map (fun j => j.2.2)
        = (List.range (min tokenIds.length addresses.length)).map (b + ·) := by
  refine ⟨enum_build_snd b tokenIds, ?_, ?_, ?_⟩
  · rw [enum_build_snd b tokenIds]
    exact (List.nodup_range tokenIds.length).map
      (fun x y h => Nat.add_left_cancel h)
  · intro i
    unfold rapid_sequential_build
    rw [List.getElem?_map, List.getElem?_enum]
    cases tokenIds[i]? <;> rfl
  · unfold transfer_to_multiple_build
    rw [List.map_map]
    have h : ((fun j : ℕ × String × ℕ => j.2.2)
        ∘ fun p : ℕ × (ℕ × String) => (p.2.1, p.2.2, b + p.1))
        = (fun i => b + i) ∘ Prod.fst := rfl
    rw [h, ← List.map_map, List.enum_map_fst]
    have hl : (transfer_to_multiple_pairs tokenIds addresses).length
        = min tokenIds.length addresses.length := by
      rw [transfer_to_multiple_pairs_eq_zip]; exact List.length_zip ..
    rw [hl]

theorem custom_distribution_pairs_fst (pairs : List (String × ℕ)) :
    ∀ holdings : List ℕ, (pairs.map Prod.snd).sum ≤ holdings.length →
      (custom_distribution_pairs holdings pairs).map Prod.fst
        = holdings.take (pairs.map Prod.snd).sum := by
  induction pairs with
  | nil => intro holdings _; simp [custom_distribution_pairs]
  | cons p rest ih =>
      intro holdings hsum
      obtain ⟨addr, amount⟩ := p
      have hid : (Prod.fst ∘ fun t : ℕ => (t, addr)) = id := rfl
      simp only [custom_distribution_pairs, List.map_append, List.map_map, hid,
        List.map_id, List.map_cons, List.sum_cons] at hsum ⊢
      have hsum' : (rest.map Prod.snd).sum ≤ (holdings.drop amount).length := by
        simp only [List.length_drop]
        omega
      rw [ih (holdings.drop amount) hsum']
      exact (List.take_add holdings amount _).symm

/-- C9: when the per-destination counts sum to more than the available
holdings the whole plan is rejected (no partial plan, nothing is
transferred); otherwise the plan consumes holdings sequentially in the
resolver's order, pairing the first `amounts.sum` holdings in ascending
position. -/
theorem custom_distribution_policy (holdings : List ℕ) (addresses : List String)
    (amounts : List ℕ) (hlen : amounts.length = addresses.length) :
    (amounts.sum > holdings.length →
        custom_distribution holdings addresses amounts = none)
    ∧ (amounts.sum ≤ holdings.length →
        ∃ plan, custom_distribution holdings addresses amounts = some plan
          ∧ plan.map Prod.fst = holdings.take amounts.sum) := by
  constructor
  · intro hgt
    unfold custom_distribution
    rw [if_pos hgt]
  · intro hle
    refine ⟨custom_distribution_pairs holdings (addresses.zip amounts), ?_, ?_⟩
    · unfold custom_distribution
      rw [if_neg (by omega)]
    · have hz : (addresses.zip amounts).map Prod.snd = amounts :=
        List.map_snd_zip addresses amounts (le_of_eq hlen)
      have := custom_distribution_pairs_fst (addresses.zip amounts) holdings
        (by rw [hz]; exact hle)
      rw [hz] at this
      exact this

/-- Witness for C9 at concrete inputs: holdings `[3,7,9]`, two addresses
with counts `[2,1]` fit exactly and consume the holdings in order. -/
theorem custom_distribution_policy_witness :
    ∃ plan, custom_distribution [3, 7, 9] ["A", "B"] [2, 1] = some plan
      ∧ plan.map Prod.fst = ([3, 7, 9] : List ℕ).take ([2, 1] : List ℕ).sum :=
  (custom_distribution_policy [3, 7, 9] ["A", "B"] [2, 1] (by decide)).2 (by decide)

theorem scanAcc_mem (l : List Chunk) :
    ∀ (s₁ s₂ : List ℕ) (x : ℕ),
      (x ∈ (l.foldl scanChunk (s₁, s₂)).1 ↔ x ∈ s₁ ∨ ∃ c ∈ l, c.ok = true ∧ x ∈ c.recv)
      ∧ (x ∈ (l.foldl scanChunk (s₁, s₂)).2 ↔ x ∈ s₂ ∨ ∃ c ∈ l, c.ok = true ∧ x ∈ c.sent) := by
  induction l with
  | nil => intro s₁ s₂ x; simp
  | cons c rest ih =>
      intro s₁ s₂ x
      have hstep : (c :: rest).foldl scanChunk (s₁, s₂)
          = rest.foldl scanChunk (scanChunk (s₁, s₂) c) := rfl
      rw [hstep]
      by_cases hc : c.ok
      · have hsc : scanChunk (s₁, s₂) c
            = (pySetAddAll s₁ c.recv, pySetAddAll s₂ c.sent) := by
          unfold scanChunk; rw [if_pos hc]
        rw [hsc]
        rw [(ih _ _ x).1, (ih _ _ x).2, PingMint.mem_pySetAddAll, PingMint.mem_pySetAddAll]
        constructor <;> constructor
        · rintro ((hs | hr) | ⟨d, hd, hdok, hdx⟩)
          · exact Or.inl hs
          · exact Or.inr ⟨c, List.mem_cons_self .., hc, hr⟩
          · exact Or.inr ⟨d, List.mem_cons_of_mem c hd, hdok, hdx⟩
        · rintro (hs | ⟨d, hd, hdok, hdx⟩)
          · exact Or.inl (Or.inl hs)
          · rcases List.mem_cons.mp hd with rfl | hd'
            · exact Or.inl (Or.inr hdx)
            · exact Or.inr ⟨d, hd', hdok, hdx⟩
        · rintro ((hs | hr) | ⟨d, hd, hdok, hdx⟩)
          · exact Or.inl hs
          · exact Or.inr ⟨c, List.mem_cons_self .., hc, hr⟩
          · exact Or.inr ⟨d, List.mem_cons_of_mem c hd, hdok, hdx⟩
        · rintro (hs | ⟨d, hd, hdok, hdx⟩)
          · exact Or.inl (Or.inl hs)
          · rcases List.mem_cons.mp hd with rfl | hd'
            · exact Or.inl (Or.inr hdx)
            · exact Or.inr ⟨d, hd', hdok, hdx⟩
      · have hsc : scanChunk (s₁, s₂) c = (s₁, s₂) := by
          unfold scanChunk; rw [if_neg hc]
        rw [hsc]
        rw [(ih s₁ s₂ x).1, (ih s₁ s₂ x).2]
        constructor <;> constructor
        · rintro (hs | ⟨d, hd, hdok, hdx⟩)
          · exact Or.inl hs
          · exact Or.inr ⟨d, List.mem_cons_of_mem c hd, hdok, hdx⟩
        · rintro (hs | ⟨d, hd, hdok, hdx⟩)
          · exact Or.inl hs
          · rcases List.mem_cons.mp hd with rfl | hd'
            · exact absurd hdok (by simpa using hc)
            · exact Or.inr ⟨d, hd', hdok, hdx⟩
        · rintro (hs | ⟨d, hd, hdok, hdx⟩)
          · exact Or.inl hs
          · exact Or.inr ⟨d, List.mem_cons_of_mem c hd, hdok, hdx⟩
        · rintro (hs | ⟨d, hd, hdok, hdx⟩)
          · exact Or.inl hs
          · rcases List.mem_cons.mp hd with rfl | hd'
            · exact absurd hdok (by simpa using hc)
            · exact Or.inr ⟨d, hd', hdok, hdx⟩

theorem scanAcc_nodup (l : List Chunk) :
    ∀ s₁ s₂ : List ℕ, s₁.Nodup → s₂.Nodup →
      (l.foldl scanChunk (s₁, s₂)).1.Nodup ∧ (l.foldl scanChunk (s₁, s₂)).2.Nodup := by
  induction l with
  | nil => intro s₁ s₂ h₁ h₂; exact ⟨h₁, h₂⟩
  | cons c rest ih =>
      intro s₁ s₂ h₁ h₂
      have hstep : (c :: rest).foldl scanChunk (s₁, s₂)
          = rest.foldl scanChunk (scanChunk (s₁, s₂) c) := rfl
      rw [hstep]
      by_cases hc : c.ok
      · have hsc : scanChunk (s₁, s₂) c
            = (pySetAddAll s₁ c.recv, pySetAddAll s₂ c.sent) := by
          unfold scanChunk; rw [if_pos hc]
        rw [hsc]
        exact ih _ _ (PingMint.nodup_pySetAddAll c.recv s₁ h₁)
          (PingMint.nodup_pySetAddAll c.sent s₂ h₂)
      · have hsc : scanChunk (s₁, s₂) c = (s₁, s₂) := by
          unfold scanChunk; rw [if_neg hc]
        rw [hsc]
        exact ih s₁ s₂ h₁ h₂

/-- C4 counterexample: a scan interrupted while the partial reconstruction
is empty (here one processed chunk whose received and sent sets cancel)
re-raises the interruption (`none`) instead of returning the reconstructed
holdings, contrary to the claim that every partial state, including the
zero-holdings one, yields a returned result. -/
theorem interrupted_scan_empty_reraises :
    interruptedScan [⟨true, [5], [5]⟩] 1 = none := by rfl

/-- C4 (amended): interruption after `k` of the chunks returns the sorted
reconstruction (received − sent) of the successfully processed prefix
whenever that reconstruction is non-empty; when it is empty the
interruption is re-raised and nothing is returned. -/
theorem interrupted_scan_partial_result (chunks : List Chunk) (k : ℕ) :
    (∀ l, interruptedScan chunks k = some l →
      l.Sorted (· < ·) ∧ ∀ x, (x ∈ l ↔ ReceivedIn chunks k x ∧ ¬ SentIn chunks k x))
    ∧ (interruptedScan chunks k = none ↔
        ∀ x, ¬(ReceivedIn chunks k x ∧ ¬ SentIn chunks k x)) := by
  have hmem : ∀ x, x ∈ PingMint.pySetDiff (scanAcc (chunks.take k)).1
      (scanAcc (chunks.take k)).2 ↔ ReceivedIn chunks k x ∧ ¬ SentIn chunks k x := by
    intro x
    rw [PingMint.mem_pySetDiff]
    unfold scanAcc
    rw [(scanAcc_mem (chunks.take k) [] [] x).1, (scanAcc_mem (chunks.take k) [] [] x).2]
    simp only [List.not_mem_nil, false_or]
    exact Iff.rfl
  have hnd : (PingMint.pySetDiff (scanAcc (chunks.take k)).1
      (scanAcc (chunks.take k)).2).Nodup := by
    apply PingMint.nodup_pySetDiff
    exact (scanAcc_nodup (chunks.take k) [] [] List.nodup_nil List.nodup_nil).1
  constructor
  · intro l hl
    unfold interruptedScan at hl
    by_cases hlen : (PingMint.pySetDiff (scanAcc (chunks.take k)).1
        (scanAcc (chunks.take k)).2).length > 0
    · rw [if_pos hlen] at hl
      have hl' : PingMint.pySorted (PingMint.pySetDiff (scanAcc (chunks.take k)).1
          (scanAcc (chunks.take k)).2) = l := by
        injection hl
      constructor
      · rw [← hl']
        exact PingMint.sorted_lt_pySorted _ hnd
      · intro x
        rw [← hl', PingMint.mem_pySorted]
        exact hmem x
    · rw [if_neg hlen] at hl
      cases hl
  · unfold interruptedScan
    by_cases hlen : (PingMint.pySetDiff (scanAcc (chunks.take k)).1
        (scanAcc (chunks.take k)).2).length > 0
    · rw [if_pos hlen]
      constructor
      · intro h; cases h
      · intro hall
        exfalso
        have hne : PingMint.pySetDiff (scanAcc (chunks.take k)).1
            (scanAcc (chunks.take k)).2 ≠ [] := by
          intro hnil
          rw [hnil] at hlen
          exact absurd hlen (by simp)
        obtain ⟨x, hx⟩ := List.exists_mem_of_ne_nil _ hne
        exact hall x ((hmem x).mp hx)
    · rw [if_neg hlen]
      constructor
      · intro _ x hPx
        apply hlen
        have hx := (hmem x).mpr hPx
        exact List.length_pos.mpr (fun hnil => by rw [hnil] at hx; cases hx)
      · intro _; rfl

/-- Witness for C4 (amended): one successful chunk receiving `{1,2}` and
sending `{2}`; interruption returns `[1]`, sorted, and `1` is exactly a
received-not-sent token. -/
theorem interrupted_scan_partial_result_witness :
    List.Sorted (· < ·) [1]
    ∧ ((1 : ℕ) ∈ ([1] : List ℕ) ↔
        ReceivedIn [⟨true, [1, 2], [2]⟩] 1 1 ∧ ¬ SentIn [⟨true, [1, 2], [2]⟩] 1 1) := by
  have h := (interrupted_scan_partial_result [⟨true, [1, 2], [2]⟩] 1).1 [1] (by rfl)
  exact ⟨h.1, h.2 1⟩

theorem scanGo_aborts (l : List Chunk) :
    ∀ (acc : List ℕ × List ℕ) (ec : ℕ),
      (scanGo l acc ec = ScanResult.nextTier ↔ abortsFrom (l.map Chunk.ok) ec = true) := by
  induction l with
  | nil => intro acc ec; simp [scanGo, abortsFrom]
  | cons c rest ih =>
      intro acc ec
      rw [scanGo, List.map_cons]
      cases hco : c.ok
      · rw [if_neg (by decide)]
        by_cases he : ec + 1 ≥ max_errors
        · rw [if_pos he]
          simp [abortsFrom, he]
        · rw [if_neg he, ih acc (ec + 1)]
          simp [abortsFrom, he]
      · rw [if_pos rfl, ih (scanChunk acc c) 0]
        simp [abortsFrom]

theorem abortsFrom_eq_hasThree (bl : List Bool) :
    ∀ ec : ℕ, ec < max_errors →
      abortsFrom bl ec = hasThreeConsecFails (List.replicate ec false ++ bl) := by
  induction bl with
  | nil =>
      intro ec hec
      have h3 : ec = 0 ∨ ec = 1 ∨ ec = 2 := by
        unfold max_errors at hec; omega
      rcases h3 with rfl | rfl | rfl <;> decide
  | cons b rest ih =>
      intro ec hec
      have h3 : ec = 0 ∨ ec = 1 ∨ ec = 2 := by
        unfold max_errors at hec; omega
      cases b
      · rcases h3 with rfl | rfl | rfl
        · rw [show (abortsFrom (false :: rest) 0 = abortsFrom rest 1) from by
            simp [abortsFrom, max_errors], ih 1 (by decide)]
          simp [List.replicate, hasThreeConsecFails, startsWithFails]
        · rw [show (abortsFrom (false :: rest) 1 = abortsFrom rest 2) from by
            simp [abortsFrom, max_errors], ih 2 (by decide)]
          simp [List.replicate, hasThreeConsecFails, startsWithFails]
        · rw [show (abortsFrom (false :: rest) 2 = true) from by
            simp [abortsFrom, max_errors]]
          simp [List.replicate, hasThreeConsecFails, startsWithFails]
      · rcases h3 with rfl | rfl | rfl
        · rw [show (abortsFrom (true :: rest) 0 = abortsFrom rest 0) from by
            simp [abortsFrom], ih 0 (by decide)]
          simp [List.replicate, hasThreeConsecFails, startsWithFails]
        · rw [show (abortsFrom (true :: rest) 1 = abortsFrom rest 0) from by
            simp [abortsFrom], ih 0 (by decide)]
          simp [List.replicate, hasThreeConsecFails, startsWithFails]
        · rw [show (abortsFrom (true :: rest) 2 = abortsFrom rest 0) from by
            simp [abortsFrom], ih 0 (by decide)]
          simp [List.replicate, hasThreeConsecFails, startsWithFails]

theorem startsWithFails_two (l : List Bool) :
    startsWithFails 2 l = true ↔ ∃ t, l = false :: false :: t := by
  match l with
  | [] => simp [startsWithFails]
  | [b] => simp [startsWithFails]
  | b :: b' :: t => cases b <;> cases b' <;> simp [startsWithFails]

theorem hasThree_iff (bl : List Bool) :
    hasThreeConsecFails bl = true ↔ ∃ p q, bl = p ++ [false, false, false] ++ q := by
  induction bl with
  | nil =>
      constructor
      · intro h; exact absurd h (by decide)
      · rintro ⟨p, q, h⟩
        rcases p with _ | ⟨a, p'⟩ <;> simp at h
  | cons b rest ih =>
      rw [hasThreeConsecFails, Bool.or_eq_true, Bool.and_eq_true]
      constructor
      · rintro (⟨hb, hsw⟩ | h)
        · obtain ⟨t, rfl⟩ := (startsWithFails_two rest).mp hsw
          rw [Bool.not_eq_true'] at hb
          exact ⟨[], t, by rw [hb]; rfl⟩
        · obtain ⟨p, q, rfl⟩ := ih.mp h
          exact ⟨b :: p, q, rfl⟩
      · rintro ⟨p, q, hpq⟩
        rcases p with _ | ⟨a, p'⟩
        · simp only [List.nil_append, List.cons_append] at hpq
          injection hpq with hb hrest
          left
          refine ⟨by rw [Bool.not_eq_true', hb], (startsWithFails_two rest).mpr ⟨q, ?_⟩⟩
          rw [hrest]
        · simp only [List.cons_append] at hpq
          injection hpq with hb hrest
          right
          refine ih.mpr ⟨p', q, ?_⟩
          rw [hrest]

/-- C7: the event-log scan aborts to the next-tier strategy exactly when
its chunk-success pattern contains three consecutive failures; since the
error counter resets on every successful chunk, any pattern with fewer
than three consecutive failures (in particular a single transient
failure) runs to completion. -/
theorem scan_aborts_iff_three_consecutive_failures (chunks : List Chunk) :
    getNftsFromEvents chunks = ScanResult.nextTier
      ↔ ∃ p q, chunks.map Chunk.ok = p ++ [false, false, false] ++ q := by
  rw [getNftsFromEvents, scanGo_aborts chunks ([], []) 0,
    abortsFrom_eq_hasThree (chunks.map Chunk.ok) 0 (by decide)]
  rw [show List.replicate 0 false ++ chunks.map Chunk.ok = chunks.map Chunk.ok from rfl]
  exact hasThree_iff _


/-- C2 counterexample: a successful (status-200) API response reporting
zero holdings is not treated as a terminal confirmed-empty answer; the
API tier returns `None` and the resolver falls through to the event-log
tier, contrary to the claim. -/
theorem api_confirmed_empty_falls_through :
    getNftsFromApi (ApiAttempt.response ⟨200, []⟩) = none
    ∧ get_my_nfts_auto (ApiAttempt.response ⟨200, []⟩) = ResolvedVia.eventScanTier :=
  ⟨rfl, rfl⟩

/-- C2 (amended): the API tier answers terminally exactly when the
response has status 200 and a non-empty holdings list, in which case the
answer is the ascending sort of those holdings; missing credential,
non-200 status, transport failure, and a confirmed-empty 200 response all
fall through to the event-log tier. -/
theorem api_tier_terminal_iff (a : ApiAttempt) :
    ((getNftsFromApi a).isSome = true ↔
      ∃ r, a = ApiAttempt.response r ∧ r.status = 200 ∧ r.ownedIds ≠ [])
    ∧ (∀ ids, getNftsFromApi a = some ids →
        ids.Sorted (· ≤ ·)
        ∧ ∀ x, (x ∈ ids ↔ ∃ r, a = ApiAttempt.response r ∧ x ∈ r.ownedIds))
    ∧ (getNftsFromApi a = none → get_my_nfts_auto a = ResolvedVia.eventScanTier) := by
  refine ⟨?_, ?_, ?_⟩
  · cases a with
    | noCredential => simp [getNftsFromApi]
    | transportError => simp [getNftsFromApi]
    | response r =>
        by_cases hs : r.status = 200
        · by_cases hne : r.ownedIds ≠ []
          · simp only [getNftsFromApi, if_pos hs, if_pos hne, Option.isSome_some]
            exact ⟨fun _ => ⟨r, rfl, hs, hne⟩, fun _ => trivial⟩
          · simp only [getNftsFromApi, if_pos hs, if_neg hne, Option.isSome_none]
            constructor
            · intro h; cases h
            · rintro ⟨r', hr', _, hne'⟩
              injection hr' with hr''
              exact absurd (hr'' ▸ hne') hne
        · simp only [getNftsFromApi, if_neg hs]
          constructor
          · intro h; cases h
          · rintro ⟨r', hr', hs', _⟩
            injection hr' with hr''
            exact absurd (hr'' ▸ hs') hs
  · intro ids hids
    cases a with
    | noCredential => cases hids
    | transportError => cases hids
    | response r =>
        by_cases hs : r.status = 200
        · by_cases hne : r.ownedIds ≠ []
          · rw [getNftsFromApi, if_pos hs, if_pos hne] at hids
            have hids' : PingMint.pySorted r.ownedIds = ids := by injection hids
            constructor
            · rw [← hids']
              exact List.sorted_insertionSort (· ≤ ·) r.ownedIds
            · intro x
              rw [← hids', PingMint.mem_pySorted]
              constructor
              · intro hx; exact ⟨r, rfl, hx⟩
              · rintro ⟨r', hr', hx⟩
                injection hr' with hr''
                exact hr'' ▸ hx
          · rw [getNftsFromApi, if_pos hs, if_neg hne] at hids
            cases hids
        · rw [getNftsFromApi, if_neg hs] at hids
          cases hids
  · intro hnone
    rw [get_my_nfts_auto, hnone]

/-- Witness for C2 (amended): status 200 with holdings `[2,1]` answers
terminally with the sorted list `[1,2]`. -/
theorem api_tier_terminal_iff_witness :
    List.Sorted (· ≤ ·) [1, 2]
    ∧ ((1 : ℕ) ∈ ([1, 2] : List ℕ) ↔
        ∃ r, ApiAttempt.response ⟨200, [2, 1]⟩ = ApiAttempt.response r
          ∧ (1 : ℕ) ∈ r.ownedIds) := by
  have h := (api_tier_terminal_iff (ApiAttempt.response ⟨200, [2, 1]⟩)).2.1 [1, 2] (by rfl)
  exact ⟨h.1, h.2 1⟩

/-- C6: across two consecutive `approve_bulk_transfer` calls at most one
approval-granting write transaction is issued; when the approval state is
already granted a call performs only the read, returns success and
submits no write; and after any successful call the follow-up call is a
pure read returning success. -/
theorem approval_gate_idempotent (st w₁ w₂ : Bool) :
    (approve_bulk_transfer st w₁).writesGranting
      + (approve_bulk_transfer (approve_bulk_transfer st w₁).approvedAfter w₂).writesGranting
      ≤ 1
    ∧ approve_bulk_transfer true w₁ = ⟨true, true, 0, 0⟩
    ∧ ((approve_bulk_transfer st w₁).result = true →
        approve_bulk_transfer (approve_bulk_transfer st w₁).approvedAfter w₂
          = ⟨true, true, 0, 0⟩) := by
  cases st <;> cases w₁ <;> cases w₂ <;> decide

/-- Witness for C6: after a first call that had to write (and whose write
confirmed), the second call is a pure read returning success. -/
theorem approval_gate_idempotent_witness :
    approve_bulk_transfer (approve_bulk_transfer false true).approvedAfter true
      = ⟨true, true, 0, 0⟩ :=
  (approval_gate_idempotent false true true).2.2 (by rfl)

/-- C5 counterexample: when the ledger reports an unrelated error (one
mentioning neither the batch selector nor "not found"), the
single-transaction path returns failure without invoking the per-job
pipeline at all, contrary to the claim that it falls back exactly once. -/
theorem unrelated_error_no_fallback :
    (batch_transfer_single_tx (SingleTxAttempt.raised false false) true).perJobRuns = 0
    ∧ (batch_transfer_single_tx (SingleTxAttempt.raised false false) true).result = false :=
  ⟨rfl, rfl⟩

/-- C5 (amended): the single-transaction path invokes the per-job
pipeline exactly once — and never retries the rejected call — precisely
when the raised error mentions the batch selector or "not found"; on an
unrelated error it returns failure with no fallback.  The external-bulk
path never sends the single batch call and, once the approval gate
passes, invokes the per-job pipeline at least once: exactly once when
that invocation returns normally, and a second time from its error
handler when the first invocation raises; a failed approval gate invokes
it not at all. -/
theorem single_tx_fallback_policy (sel nf perJobResult retryResult : Bool)
    (firstRun : RunOutcome) :
    (batch_transfer_single_tx (SingleTxAttempt.raised sel nf) perJobResult).perJobRuns
        = (if sel || nf then 1 else 0)
    ∧ (batch_transfer_single_tx (SingleTxAttempt.raised sel nf) perJobResult).singleCallsSent
        = 1
    ∧ ((sel || nf) = true →
        (batch_transfer_single_tx (SingleTxAttempt.raised sel nf) perJobResult).result
          = perJobResult)
    ∧ (bulk_transfer_external false firstRun retryResult).perJobRuns = 0
    ∧ (bulk_transfer_external true (RunOutcome.finished perJobResult) retryResult)
        = ⟨perJobResult, 0, 1⟩
    ∧ (bulk_transfer_external true RunOutcome.raised retryResult)
        = ⟨retryResult, 0, 2⟩
    ∧ 1 ≤ (bulk_transfer_external true firstRun retryResult).perJobRuns
    ∧ (bulk_transfer_external true firstRun retryResult).singleCallsSent = 0 := by
  cases firstRun with
  | finished r =>
      cases sel <;> cases nf <;> cases r <;>
        simp [batch_transfer_single_tx, bulk_transfer_external]
  | raised =>
      cases sel <;> cases nf <;>
        simp [batch_transfer_single_tx, bulk_transfer_external]

/-- Witness for C5 (amended): a selector-mentioning rejection falls back
and reports the per-job pipeline's result. -/
theorem single_tx_fallback_policy_witness :
    (batch_transfer_single_tx (SingleTxAttempt.raised true false) true).result = true :=
  (single_tx_fallback_policy true false true true (RunOutcome.finished true)).2.2.1 (by rfl)

theorem probeEvents_only_probes (l : List Bool) :
    ∀ i, ∀ e ∈ probeEvents l i, ∃ j, e = PingMint.InitEvent.rpcProbe j := by
  induction l with
  | nil => intro i e he; cases he
  | cons b rest ih =>
      intro i e he
      rw [probeEvents] at he
      rcases List.mem_cons.mp he with rfl | he'
      · exact ⟨i, rfl⟩
      · cases b
        · exact ih (i + 1) e (by simpa using he')
        · simp at he'

end BatchTransfer

namespace Minter

/-- C10: evaluating the mint pipeline at a mint that confirms with
success status but has no Transfer event log.  `mint_nft` returns `True`;
because Python's `bool` is a subclass of `int`, `isinstance(True, int)`
holds and `run` appends `True` (integer value 1) to `minted_token_ids` —
despite the source's own comment "Only add to list if we got actual token
ID".  The mint is counted successful, zero ids were extracted, yet with
one recipient configured a transfer (of "token 1") is attempted, so
transfers attempted exceed the number of extracted ids. -/
theorem idless_mint_enters_transfer_list :
    runMints [ReceiptOutcome.okNoTransferLog] = ⟨1, 0, [1]⟩
    ∧ extractedIdCount [ReceiptOutcome.okNoTransferLog] = 0
    ∧ transfersAttempted [ReceiptOutcome.okNoTransferLog] 1 = 1 :=
  ⟨rfl, rfl, rfl⟩

end Minter

namespace PingMint

/-- C3 counterexample: with a reachable first RPC endpoint and
`PRIVATE_KEY` absent, `BatchTransfer.__init__` probes the endpoint — a
network request — before the credential check fails, contrary to the
claim that no network request is ever issued prior to the credential
check. -/
theorem batch_init_probes_before_credential_check :
    BatchTransfer.batchTransferInit [true, false, false, false] false true true
      = ([InitEvent.rpcProbe 0, InitEvent.credCheck], InitOutcome.configError)
    ∧ isNetworkCall (InitEvent.rpcProbe 0) = true :=
  ⟨rfl, rfl⟩

/-- C3 (amended): an absent credential always ends initialization in a
configuration error; in `NetPacketsMinter.__init__` this happens before
any network call, while in `BatchTransfer.__init__` only the RPC endpoint
probes precede the check — the main connection and the balance read are
never reached.  A malformed (present) credential is likewise rejected
with a configuration error in both clients, but only after the
connectivity check: each malformed-credential trace ends with the key
parsing step right after `mainConnect`, and the balance read is never
reached. -/
theorem missing_credential_rejected (probeOk : List Bool) (wf mainOk : Bool) :
    (Minter.minterInit false wf mainOk).2 = InitOutcome.configError
    ∧ (Minter.minterInit false wf mainOk).1.all (fun e => !isNetworkCall e) = true
    ∧ (BatchTransfer.batchTransferInit probeOk false wf mainOk).2 = InitOutcome.configError
    ∧ InitEvent.mainConnect ∉ (BatchTransfer.batchTransferInit probeOk false wf mainOk).1
    ∧ InitEvent.balanceQuery ∉ (BatchTransfer.batchTransferInit probeOk false wf mainOk).1
    ∧ Minter.minterInit true false true
        = ([InitEvent.credCheck, InitEvent.mainConnect, InitEvent.credParse],
           InitOutcome.configError)
    ∧ BatchTransfer.batchTransferInit probeOk true false true
        = (BatchTransfer.probeEvents probeOk 0
            ++ [InitEvent.credCheck, InitEvent.mainConnect, InitEvent.credParse],
           InitOutcome.configError) := by
  refine ⟨rfl, rfl, rfl, ?_, ?_, rfl, rfl⟩
  · intro hmem
    have hmem' : InitEvent.mainConnect ∈ BatchTransfer.probeEvents probeOk 0
        ++ [InitEvent.credCheck] := hmem
    rcases List.mem_append.mp hmem' with hp | hc
    · obtain ⟨j, hj⟩ := BatchTransfer.probeEvents_only_probes probeOk 0 _ hp
      cases hj
    · rcases List.mem_singleton.mp hc with h
      cases h
  · intro hmem
    have hmem' : InitEvent.balanceQuery ∈ BatchTransfer.probeEvents probeOk 0
        ++ [InitEvent.credCheck] := hmem
    rcases List.mem_append.mp hmem' with hp | hc
    · obtain ⟨j, hj⟩ := BatchTransfer.probeEvents_only_probes probeOk 0 _ hp
      cases hj
    · rcases List.mem_singleton.mp hc with h
      cases h


end PingMint
